import Mathlib

/-!
Verification of the deduplication and cache-reconciliation pipeline of the
Arkane lead-management application (src/app.py, src/model.py).

The embedding models a pandas DataFrame column-wise: a `DF` is a row count
together with an ordered association list of named columns, each column an
ordered list of cells.  A cell is `Option String`: `none` models a pandas
missing value (NaN), `some s` a string value.  The persistent store is a
list of `Lead` records (src/model.py); SQLAlchemy queries are embedded as
list filters scoped by `team_id`, and the `ORDER BY email, upload_date DESC`
of the dedupe classifier as an insertion sort by that lexicographic key.
The staging cache (parquet files keyed by token) is an association list
from token to the staged `DF`; the parquet codec is an external collaborator
and is modelled as exact storage.
-/

namespace Arkane

/-! ### Python string primitives (str.lower, str.strip, str(...)) -/

/-- Cell value: `none` is a pandas missing value (NaN). -/
abbrev Val := Option String

/-- Python `str.lower()` on the character list (ASCII case mapping). -/
def lowerL (s : List Char) : List Char := s.map Char.toLower

/-- Python `str.strip()` on the character list: drop whitespace at both ends. -/
def trimL (s : List Char) : List Char :=
  ((s.dropWhile Char.isWhitespace).reverse.dropWhile Char.isWhitespace).reverse

/-- Python `s.lower()`. -/
def pyLower (s : String) : String := ⟨lowerL s.data⟩

/-- Python `s.strip()`. -/
def pyStrip (s : String) : String := ⟨trimL s.data⟩

/-- Python `str(cell)`: a missing value (NaN) prints as the string "nan". -/
def pyStr : Val → String
  | none => "nan"
  | some s => s

/-- Header normalization `str(c).strip().lower()` (app.py line 539). -/
def lowerName (c : String) : String := pyLower (pyStrip c)

/-- `p` occurs at the front of the list. -/
def patAtFront : List Char → List Char → Bool
  | [], _ => true
  | _ :: _, [] => false
  | p :: ps, c :: cs => p == c && patAtFront ps cs

/-- `p` occurs somewhere inside the list (Python `p in s`). -/
def patInside (pat : List Char) : List Char → Bool
  | [] => patAtFront pat []
  | c :: cs => patAtFront pat (c :: cs) || patInside pat cs

/-- `'mail' in c.lower()` (app.py line 257). -/
def hasMail (c : String) : Bool := patInside "mail".data (lowerL c.data)

/-- `find_email_col` (app.py lines 255-259): first column name containing
"mail" case-insensitively; `none` models the raised `KeyError`. -/
def find_email_col (cols : List String) : Option String := cols.find? hasMail

/-- `allowed_file` (app.py lines 249-253): `'.' in filename and
filename.rsplit('.', 1)[1].lower() in ALLOWED_EXTENSIONS`. -/
def allowed_file (exts : List String) (fn : String) : Bool :=
  fn.data.contains '.' &&
    exts.contains (pyLower ⟨(fn.data.reverse.takeWhile (fun c => c != '.')).reverse⟩)

/-- Email value normalization `lambda s: str(s).strip().lower()` (line 533). -/
def normEmailVal (v : Val) : Val := some (pyLower (pyStrip (pyStr v)))

/-- `where(pd.notnull(col), "")`: replace a missing value by the empty string. -/
def fillNa : Val → Val
  | none => some ""
  | some s => some s

/-- `strftime('%Y-%m-%d')` on the (abstracted, Nat-valued) upload date. -/
def fmtDate (n : Nat) : String := toString n

/-! ### DataFrames -/

/-- A pandas DataFrame: a row count and named columns of cells. -/
structure DF where
  nrows : Nat
  cols : List (String × List Val)
deriving DecidableEq, Repr

/-- Column labels, in order. -/
def colNames (df : DF) : List String := df.cols.map Prod.fst

/-- `df[c]`: the cells of the first column labelled `c`; a column absent from
the frame reads as all-missing (as when pandas reindexes over a column
union). -/
def colCells (df : DF) (c : String) : List Val :=
  match df.cols.find? (fun nc => nc.1 == c) with
  | some nc => nc.2
  | none => List.replicate df.nrows none

/-- `df[c] = f(df[c])`: transform the cells of the first column labelled `c`. -/
def setFirst (c : String) (f : List Val → List Val) :
    List (String × List Val) → List (String × List Val)
  | [] => []
  | nc :: rest =>
    if nc.1 == c then (nc.1, f nc.2) :: rest else nc :: setFirst c f rest

/-- Pad or truncate a cell list to exactly `n` cells (identity on well-formed
columns, used so that concatenation is total). -/
def resize (n : Nat) (vs : List Val) : List Val :=
  vs.take n ++ List.replicate (n - vs.length) none

/-- Column-label union in order of first appearance, as
`pd.concat` aligns columns. -/
def unionNames (dfs : List DF) : List String :=
  dfs.foldl (fun acc d => acc ++ (colNames d).filter (fun c => !acc.contains c)) []

/-- `pd.concat(dfs, ignore_index=True)` (app.py line 560): stack all rows,
aligning on the union of the column labels; a column absent from one frame
is back-filled with missing values for that frame's rows. -/
def concatAll (dfs : List DF) : DF :=
  ⟨(dfs.map DF.nrows).sum,
    (unionNames dfs).map
      (fun c => (c, (dfs.map (fun d => resize d.nrows (colCells d c))).flatten))⟩

/-! ### Per-file normalization (app.py lines 512-551) -/

/-- An uploaded file: its (secured) filename and its parsed tabular content.
Spreadsheet parsing (`pd.read_excel`) and `secure_filename` are external
collaborators; the file arrives as an already-decoded `DF`. -/
structure UFile where
  name : String
  df : DF
deriving DecidableEq, Repr

/-- NaN back-fill of the canonical string-typed columns that exist in the
file (app.py lines 545-548). -/
def fillCanon (df : DF) : DF :=
  ⟨df.nrows,
    ["company", "quarter", "campaign", "__src__", "exclusions"].foldl
      (fun cs c => setFirst c (List.map fillNa) cs) df.cols⟩

/-- `df.rename(columns={col: "Email"})` (app.py line 532). -/
def renameToEmail (c0 : String) (df : DF) : DF :=
  ⟨df.nrows, df.cols.map (fun nc => (if nc.1 == c0 then "Email" else nc.1, nc.2))⟩

/-- `df["Email"] = df["Email"].map(lambda s: str(s).strip().lower())`
(app.py line 533). -/
def mapEmailCol (df : DF) : DF :=
  ⟨df.nrows, setFirst "Email" (List.map normEmailVal) df.cols⟩

/-- `df["__src__"] = fn` (app.py line 536). -/
def addSrcCol (fn : String) (df : DF) : DF :=
  ⟨df.nrows, df.cols ++ [("__src__", List.replicate df.nrows (some fn))]⟩

/-- `df.columns = [str(c).strip().lower() for c in df.columns]`
(app.py line 539). -/
def lowerHeaders (df : DF) : DF :=
  ⟨df.nrows, df.cols.map (fun nc => (lowerName nc.1, nc.2))⟩

/-- `df.rename(columns={"campaign name": "campaign"})` (app.py lines 540-541). -/
def campaignAlias (df : DF) : DF :=
  ⟨df.nrows, df.cols.map (fun nc => (if nc.1 == "campaign name" then "campaign" else nc.1, nc.2))⟩

/-- `if "exclusions" not in df.columns: df["exclusions"] = ""`
(app.py lines 542-543). -/
def ensureExclusions (df : DF) : DF :=
  if (colNames df).contains "exclusions" then df
  else ⟨df.nrows, df.cols ++ [("exclusions", List.replicate df.nrows (some ""))]⟩

/-- The Normalizer for one accepted file (app.py lines 523-548): locate the
email-bearing column (skip the file when there is none), rename it `Email`,
normalize its values, tag the source, lowercase and trim the headers, apply
the `campaign name` alias, ensure `exclusions`, and back-fill NaN in the
canonical columns. -/
def normalizeFile (fn : String) (df : DF) : Option DF :=
  match find_email_col (colNames df) with
  | none => none
  | some c0 =>
    some (fillCanon (ensureExclusions (campaignAlias (lowerHeaders
      (addSrcCol fn (mapEmailCol (renameToEmail c0 df)))))))

/-- The upload loop (app.py lines 512-551): skip files with a disallowed
extension and files without an email-bearing column (each with a per-file
warning); collect the normalized frames and their source names in order. -/
def processFiles (exts : List String) : List UFile → List DF × List String
  | [] => ([], [])
  | f :: fs =>
    let rest := processFiles exts fs
    if allowed_file exts f.name then
      match normalizeFile f.name f.df with
      | none => rest
      | some d => (d :: rest.1, f.name :: rest.2)
    else rest

/-! ### The persistent store (src/model.py) and the duplicate classifier -/

/-- A persisted lead record (src/model.py, class Lead).  `upload_date` is
abstracted to a Nat timestamp; `team_id` to a Nat tenant key. -/
structure Lead where
  email : String
  company : String
  quarter : String
  campaign : String
  source_file : String
  exclusions : String
  upload_date : Nat
  team_id : Nat
deriving DecidableEq, Repr

/-- `Lead.query.filter(Lead.team_id == team, Lead.email.in_(emails))`
(app.py lines 563-566 and 644-650): the team-scoped records whose email
occurs among the batch email cells. -/
def teamMatching (team : Nat) (store : List Lead) (emails : List Val) : List Lead :=
  store.filter (fun l => l.team_id == team && emails.contains (some l.email))

/-- The sort key of `.order_by(Lead.email, Lead.upload_date.desc())`
(app.py line 566). -/
def leadLe (a b : Lead) : Prop :=
  a.email < b.email ∨ (a.email = b.email ∧ b.upload_date ≤ a.upload_date)

instance : DecidableRel leadLe := fun a b =>
  decidable_of_iff
    (a.email.toList < b.email.toList ∨ (a.email = b.email ∧ b.upload_date ≤ a.upload_date))
    (or_congr String.lt_iff_toList_lt.symm Iff.rfl)

/-- The matching leads ordered by email ascending then upload date
descending, as the database returns them (app.py line 566). -/
def sortedMatching (team : Nat) (store : List Lead) (emails : List Val) : List Lead :=
  List.insertionSort leadLe (teamMatching team store emails)

/-- `existing_leads_map` lookup (app.py lines 569-572): the dict keeps, per
email, the first record of the ordered result, i.e. the latest upload. -/
def latestByVal (ms : List Lead) (v : Val) : Option Lead :=
  ms.find? (fun l => some l.email == v)

/-- Membership in `dup_set = set(big.loc[mask_dup, "email"]) | existing`
(app.py lines 561, 574-576 and 652-653): the email cell value occurs at
least twice in the batch, or belongs to a matching persisted record. -/
def inDupSet (emails : List Val) (ms : List Lead) (v : Val) : Bool :=
  decide (2 ≤ emails.count v) || ms.any (fun l => some l.email == v)

/-- One classified row of the review table: the row cells (`r.to_dict()`),
and the `upload_date`, `duplicate` and `origin` entries added to it
(app.py lines 578-598). -/
structure CRow where
  cells : List (String × Val)
  upload_date : String
  duplicate : Bool
  origin : String
deriving DecidableEq, Repr

/-- `f"DB: {camp}/{qtr}" if (camp or qtr) else "DB"` (app.py line 591). -/
def dbLabel (l : Lead) : String :=
  if l.campaign != "" || l.quarter != "" then "DB: " ++ l.campaign ++ "/" ++ l.quarter
  else "DB"

/-- Classify row `i` of the unioned batch (app.py lines 579-598). -/
def classifyRow (big : DF) (emails : List Val) (ms : List Lead) (i : Nat) : CRow :=
  let v := emails.getD i none
  let d := big.cols.map (fun nc => (nc.1, nc.2.getD i none))
  if inDupSet emails ms v then
    match latestByVal ms v with
    | some lead => ⟨d, fmtDate lead.upload_date, true, dbLabel lead⟩
    | none => ⟨d, "", true, "Current Sheet"⟩
  else ⟨d, "", false, "Current Sheet"⟩

/-- The Duplicate Classifier over a whole batch (app.py lines 561-598): a
pure function of the batch and the current store snapshot. -/
def dedupeClassify (team : Nat) (store : List Lead) (big : DF) : List CRow :=
  let emails := colCells big "email"
  let ms := sortedMatching team store emails
  (List.range big.nrows).map (classifyRow big emails ms)

/-- The `dedupe_ctx` dictionary built for the review view
(app.py lines 604-612). -/
structure DedupeOut where
  token : String
  big : DF
  rows : List CRow
  fields : List String
  count_all : Nat
  count_dup : Nat
  sources : String
deriving DecidableEq, Repr

def mkDedupeOut (token : String) (team : Nat) (store : List Lead) (big : DF)
    (srcs : List String) : DedupeOut :=
  let rows := dedupeClassify team store big
  ⟨token, big, rows,
    (colNames big).filter (fun c => c != "__src__") ++ ["__src__"],
    rows.length,
    (rows.filter (fun r => r.duplicate)).length,
    String.intercalate ", " srcs⟩

/-! ### Staging cache and the full upload operation -/

/-- Mutable external state: the per-team lead store and the token-keyed
staging cache (`_cache_{token}.parquet` slots, app.py lines 601-602). -/
structure TState where
  store : List Lead
  cache : List (String × DF)
deriving DecidableEq, Repr

/-- The dedupe upload action (app.py lines 503-625): normalize and union the
accepted files, classify against the current team-scoped store, stage the
unioned batch in the cache under the fresh token, and return the review
context.  When no file is accepted the operation aborts with a warning
(`none`) and the state is returned unchanged: no cache write, no store
write, no token handed out. -/
def runDedupe (exts : List String) (team : Nat) (token : String)
    (files : List UFile) (st : TState) : Option DedupeOut × TState :=
  let pr := processFiles exts files
  if pr.1.isEmpty then (none, st)
  else
    let big := concatAll pr.1
    (some (mkDedupeOut token team st.store big pr.2),
      ⟨st.store, (token, big) :: st.cache⟩)

/-! ### Commit (app.py lines 629-676) -/

inductive SaveMode
  | save_all
  | save_dup
deriving DecidableEq, BEq, Repr

/-- The batch re-load normalization at commit time (app.py lines 636-643):
lowercase headers, `campaign name` alias, ensure `exclusions`, and replace
every remaining missing value in the whole frame by the empty string. -/
def commitPrep (df0 : DF) : DF :=
  let d1 : DF := ⟨df0.nrows, df0.cols.map (fun nc => (pyLower nc.1, nc.2))⟩
  let d2 : DF :=
    ⟨d1.nrows, d1.cols.map (fun nc => (if nc.1 == "campaign name" then "campaign" else nc.1, nc.2))⟩
  let d3 : DF :=
    if (colNames d2).contains "exclusions" then d2
    else ⟨d2.nrows, d2.cols ++ [("exclusions", List.replicate d2.nrows (some ""))]⟩
  ⟨d3.nrows, d3.cols.map (fun nc => (nc.1, nc.2.map fillNa))⟩

/-- `r.get(c, "")` on row `i` (app.py lines 661-667): the cell value, or the
empty string when the column is absent. -/
def rget (df : DF) (i : Nat) (c : String) : String :=
  match df.cols.find? (fun nc => nc.1 == c) with
  | some nc => (nc.2.getD i none).getD ""
  | none => ""

/-- The record inserted for row `i` (app.py lines 661-669): row fields
defaulted to the empty string, owned by the acting team, stamped with the
insertion time (`datetime.utcnow` default of `upload_date`). -/
def mkLead (team now : Nat) (df : DF) (i : Nat) : Lead :=
  ⟨rget df i "email", rget df i "company", rget df i "quarter", rget df i "campaign",
    rget df i "__src__", rget df i "exclusions", now, team⟩

/-- The commit loop (app.py lines 644-672): recompute the duplicate set
against the current store for the acting team, keep a row when the mode is
`save_all` or its email is in the duplicate set, and build the new records
in row order. -/
def commitSelect (team now : Nat) (mode : SaveMode) (store : List Lead) (df0 : DF) :
    List Lead :=
  let df := commitPrep df0
  let emails := colCells df "email"
  let ms := teamMatching team store emails
  ((List.range df.nrows).filter
      (fun i => mode == SaveMode.save_all || inDupSet emails ms (emails.getD i none))).map
    (mkLead team now df)

/-- The save action (app.py lines 629-676): retrieve the staged batch (a
missing token aborts with "re-run check first"), recompute duplicates
against the current store, append the selected rows as new records in one
transaction, and report the number of rows saved.  A staged frame without
an email column raises (`KeyError`) before any insert. -/
def runCommit (team now : Nat) (token : String) (mode : SaveMode) (st : TState) :
    Except String (Nat × TState) :=
  match st.cache.lookup token with
  | none => .error "No data to save; re-run check first"
  | some df0 =>
    if (colNames (commitPrep df0)).contains "email" then
      let ins := commitSelect team now mode st.store df0
      .ok (ins.length, ⟨st.store ++ ins, st.cache⟩)
    else .error "KeyError: email"

/-! ### Exact email search (app.py lines 679-684) -/

/-- The search action: normalize the query (`strip().lower()`) and return
the team's leads whose stored email equals it exactly. -/
def runSearch (team : Nat) (q : String) (store : List Lead) : List Lead :=
  let qn := pyLower (pyStrip q)
  store.filter (fun l => l.email == qn && l.team_id == team)

/-! ### Helper lemmas -/

theorem bool_eq_decide {b : Bool} {P : Prop} [Decidable P] (h : b = true ↔ P) :
    b = decide P := by
  by_cases hp : P
  · simp [hp, h.mpr hp]
  · have hb : b ≠ true := fun hbt => hp (h.mp hbt)
    simp [hp, Bool.eq_false_iff.mpr hb]

theorem setFirst_names (c : String) (f : List Val → List Val) :
    ∀ l : List (String × List Val), (setFirst c f l).map Prod.fst = l.map Prod.fst
  | [] => rfl
  | nc :: rest => by
    cases h : nc.1 == c <;>
      simp [setFirst, h, setFirst_names c f rest]

theorem foldl_setFirst_names (g : List Val → List Val) :
    ∀ (cs : List String) (l : List (String × List Val)),
      ((cs.foldl (fun acc c => setFirst c g acc) l).map Prod.fst) = l.map Prod.fst
  | [], _ => rfl
  | c :: cs, l => by
    rw [List.foldl_cons, foldl_setFirst_names g cs, setFirst_names]

theorem colNames_fillCanon (df : DF) : colNames (fillCanon df) = colNames df :=
  foldl_setFirst_names _ _ _

theorem colNames_concatAll (dfs : List DF) :
    colNames (concatAll dfs) = unionNames dfs := by
  simp [colNames, concatAll, Function.comp_def]

theorem resize_length (n : Nat) (vs : List Val) : (resize n vs).length = n := by
  simp [resize]
  omega

theorem mem_teamMatching {team : Nat} {store : List Lead} {emails : List Val} {l : Lead} :
    l ∈ teamMatching team store emails ↔
      l ∈ store ∧ l.team_id = team ∧ some l.email ∈ emails := by
  simp [teamMatching, List.mem_filter, and_assoc]

theorem mem_sortedMatching {team : Nat} {store : List Lead} {emails : List Val} {l : Lead} :
    l ∈ sortedMatching team store emails ↔ l ∈ teamMatching team store emails :=
  (List.perm_insertionSort leadLe _).mem_iff

theorem inDupSet_true_iff {team : Nat} {store : List Lead} {emails : List Val}
    {ms : List Lead}
    (hm : ∀ l : Lead, l ∈ ms ↔ l ∈ teamMatching team store emails) (v : Val) :
    inDupSet emails ms v = true ↔
      2 ≤ emails.count v ∨
        ∃ l ∈ store, l.team_id = team ∧ some l.email = v ∧ v ∈ emails := by
  simp only [inDupSet, Bool.or_eq_true, decide_eq_true_eq, List.any_eq_true, beq_iff_eq]
  constructor
  · rintro (h | ⟨l, hl, he⟩)
    · exact Or.inl h
    · rcases mem_teamMatching.mp ((hm l).mp hl) with ⟨h1, h2, h3⟩
      exact Or.inr ⟨l, h1, h2, he, he ▸ h3⟩
  · rintro (h | ⟨l, hl, h2, he, hv⟩)
    · exact Or.inl h
    · exact Or.inr ⟨l, (hm l).mpr (mem_teamMatching.mpr ⟨hl, h2, he ▸ hv⟩), he⟩

theorem classifyRow_duplicate (big : DF) (emails : List Val) (ms : List Lead) (i : Nat) :
    (classifyRow big emails ms i).duplicate = inDupSet emails ms (emails.getD i none) := by
  unfold classifyRow
  simp only [List.getD_eq_getElem?_getD]
  cases h : inDupSet emails ms (emails[i]?.getD none)
  · simp [h]
  · simp only [h, if_true]
    cases latestByVal ms (emails[i]?.getD none) <;> rfl

theorem dedupeClassify_length (team : Nat) (store : List Lead) (big : DF) :
    (dedupeClassify team store big).length = big.nrows := by
  simp [dedupeClassify]

theorem commitPrep_nrows (df0 : DF) : (commitPrep df0).nrows = df0.nrows := by
  unfold commitPrep
  dsimp only
  split <;> rfl

theorem processFiles_none (exts : List String) :
    ∀ files : List UFile,
      (∀ f ∈ files,
        allowed_file exts f.name = false ∨ find_email_col (colNames f.df) = none) →
      (processFiles exts files).1 = []
  | [], _ => rfl
  | f :: fs, h => by
    have hrest := processFiles_none exts fs (fun g hg => h g (List.mem_cons_of_mem f hg))
    rcases h f (List.mem_cons_self f fs) with hf | hf
    · simp [processFiles, hf, hrest]
    · have hn : normalizeFile f.name f.df = none := by
        unfold normalizeFile
        rw [hf]
      cases ha : allowed_file exts f.name <;> simp [processFiles, ha, hn, hrest]

theorem processFiles_sources (exts : List String) :
    ∀ files : List UFile, ∀ d ∈ (processFiles exts files).1,
      ∃ fn df0, normalizeFile fn df0 = some d
  | [], d, hd => by simp [processFiles] at hd
  | f :: fs, d, hd => by
    have ih := processFiles_sources exts fs
    by_cases ha : allowed_file exts f.name = true
    · rcases hn : normalizeFile f.name f.df with _ | d0
      · rw [show processFiles exts (f :: fs)
            = processFiles exts fs by simp [processFiles, ha, hn]] at hd
        exact ih d hd
      · rw [show processFiles exts (f :: fs)
            = (d0 :: (processFiles exts fs).1, f.name :: (processFiles exts fs).2)
            by simp [processFiles, ha, hn]] at hd
        rcases List.mem_cons.mp hd with h | h
        · exact ⟨f.name, f.df, h ▸ hn⟩
        · exact ih d h
    · rw [show processFiles exts (f :: fs) = processFiles exts fs by
        simp [processFiles, Bool.of_not_eq_true ha]] at hd
      exact ih d hd

instance : IsTotal Lead leadLe :=
  ⟨by
    intro a b
    rcases lt_trichotomy a.email b.email with h | h | h
    · exact Or.inl (Or.inl h)
    · rcases Nat.le_total b.upload_date a.upload_date with hd | hd
      · exact Or.inl (Or.inr ⟨h, hd⟩)
      · exact Or.inr (Or.inr ⟨h.symm, hd⟩)
    · exact Or.inr (Or.inl h)⟩

instance : IsTrans Lead leadLe :=
  ⟨by
    intro a b c hab hbc
    rcases hab with h1 | ⟨h1, h2⟩
    · rcases hbc with h3 | ⟨h3, h4⟩
      · exact Or.inl (lt_trans h1 h3)
      · exact Or.inl (h3 ▸ h1)
    · rcases hbc with h3 | ⟨h3, h4⟩
      · exact Or.inl (h1 ▸ h3)
      · exact Or.inr ⟨h1.trans h3, le_trans h4 h2⟩⟩

/-- In a list sorted by email ascending, upload date descending, the first
record matching an email value has the greatest upload date among all
records of that email. -/
theorem sorted_find_max :
    ∀ {l : List Lead}, List.Sorted leadLe l → ∀ {v : Val} {x : Lead},
      l.find? (fun a => some a.email == v) = some x →
      ∀ y ∈ l, some y.email = v → y.upload_date ≤ x.upload_date := by
  intro l hs
  induction l with
  | nil => intro v x hf; simp at hf
  | cons a rest ih =>
    rw [List.sorted_cons] at hs
    intro v x hf y hy hyv
    cases hp : (some a.email == v)
    · rw [List.find?_cons, hp] at hf
      rcases List.mem_cons.mp hy with rfl | hy
      · exact absurd hyv (by simpa using hp)
      · exact ih hs.2 hf y hy hyv
    · rw [List.find?_cons, hp] at hf
      have hax : a = x := Option.some.inj hf
      have hav : some a.email = v := by simpa using hp
      rcases List.mem_cons.mp hy with rfl | hy
      · exact hax ▸ Nat.le_refl _
      · have hle := hs.1 y hy
        have hemail : a.email = y.email := by
          have := hav.trans hyv.symm
          exact Option.some.inj this
        rcases hle with h | ⟨_, h⟩
        · exact absurd h (hemail ▸ lt_irrefl _)
        · exact hax ▸ h

theorem dedupeClassify_getD (team : Nat) (store : List Lead) (big : DF) (i : Nat)
    (hi : i < big.nrows) :
    (dedupeClassify team store big).getD i ⟨[], "", false, ""⟩
      = classifyRow big (colCells big "email")
          (sortedMatching team store (colCells big "email")) i := by
  unfold dedupeClassify
  rw [List.getD_eq_getElem?_getD, List.getElem?_map, List.getElem?_range hi]
  rfl

theorem classifyRow_origin_none (big : DF) (emails : List Val) (ms : List Lead) (i : Nat)
    (hlv : latestByVal ms (emails.getD i none) = none) :
    (classifyRow big emails ms i).origin = "Current Sheet" := by
  unfold classifyRow
  simp only [List.getD_eq_getElem?_getD] at hlv ⊢
  cases hdup : inDupSet emails ms (emails[i]?.getD none)
  · simp [hdup]
  · simp only [hdup, if_true]
    rw [hlv]

theorem classifyRow_origin_some (big : DF) (emails : List Val) (ms : List Lead) (i : Nat)
    {lead : Lead} (hlv : latestByVal ms (emails.getD i none) = some lead) :
    (classifyRow big emails ms i).origin = dbLabel lead ∧
    (classifyRow big emails ms i).upload_date = fmtDate lead.upload_date := by
  have hmem := List.mem_of_find?_eq_some hlv
  have hpred := List.find?_some hlv
  have hdup : inDupSet emails ms (emails.getD i none) = true := by
    unfold inDupSet
    rw [Bool.or_eq_true]
    exact Or.inr (List.any_eq_true.mpr ⟨lead, hmem, hpred⟩)
  unfold classifyRow
  simp only [List.getD_eq_getElem?_getD] at hlv hdup ⊢
  rw [hdup, if_pos rfl, hlv]
  exact ⟨rfl, rfl⟩

/-! #### Decomposition lemmas for the normalizer -/

theorem find?_decomp_fst {p : String → Bool} :
    ∀ {l : List (String × List Val)} {c0 : String},
      (l.map Prod.fst).find? p = some c0 →
      ∃ s nc t, l = s ++ nc :: t ∧ nc.1 = c0 ∧ ∀ b ∈ s, p b.1 = false := by
  intro l
  induction l with
  | nil => intro c0 h; simp at h
  | cons x xs ih =>
    intro c0 h
    rw [List.map_cons] at h
    cases hp : p x.1
    · rw [List.find?_cons, hp] at h
      obtain ⟨s, nc, t, h1, h2, h3⟩ := ih h
      refine ⟨x :: s, nc, t, by rw [h1]; rfl, h2, ?_⟩
      intro b hb
      rcases List.mem_cons.mp hb with rfl | hb
      · exact hp
      · exact h3 b hb
    · rw [List.find?_cons, hp] at h
      exact ⟨[], x, xs, rfl, Option.some.inj h, by simp⟩

theorem setFirst_skip {c : String} {f : List Val → List Val} {vs : List Val} :
    ∀ {s : List (String × List Val)} {t : List (String × List Val)},
      (∀ b ∈ s, (b.1 == c) = false) →
      setFirst c f (s ++ (c, vs) :: t) = s ++ (c, f vs) :: t := by
  intro s
  induction s with
  | nil => intro t _; simp [setFirst]
  | cons b bs ih =>
    intro t hs
    have hb : (b.1 == c) = false := hs b (List.mem_cons_self b bs)
    have hbs : ∀ x ∈ bs, (x.1 == c) = false := fun x hx => hs x (List.mem_cons_of_mem b hx)
    have hstep : setFirst c f ((b :: bs) ++ (c, vs) :: t)
        = b :: setFirst c f (bs ++ (c, vs) :: t) := by
      simp [setFirst, hb]
    rw [hstep, ih hbs]
    rfl

theorem setFirst_keep (c e : String) (f : List Val → List Val) (m : List Val)
    (hc : c ≠ e) :
    ∀ (s t : List (String × List Val)),
      (∀ b ∈ s, b.1 ≠ e) →
      ∃ s' t', setFirst c f (s ++ (e, m) :: t) = s' ++ (e, m) :: t' ∧
        ∀ b ∈ s', b.1 ≠ e := by
  intro s
  induction s with
  | nil =>
    intro t _
    have he : (e == c) = false := beq_eq_false_iff_ne.mpr fun h => hc h.symm
    refine ⟨[], setFirst c f t, ?_, by simp⟩
    simp [setFirst, he]
  | cons b bs ih =>
    intro t hs
    have hb : b.1 ≠ e := hs b (List.mem_cons_self b bs)
    have hbs : ∀ x ∈ bs, x.1 ≠ e := fun x hx => hs x (List.mem_cons_of_mem b hx)
    cases hbc : (b.1 == c)
    · obtain ⟨s', t', h1, h2⟩ := ih t hbs
      refine ⟨b :: s', t', ?_, ?_⟩
      · have hstep : setFirst c f ((b :: bs) ++ (e, m) :: t)
            = b :: setFirst c f (bs ++ (e, m) :: t) := by
          simp [setFirst, hbc]
        rw [hstep, h1]
        rfl
      · intro x hx
        rcases List.mem_cons.mp hx with rfl | hx
        · exact hb
        · exact h2 x hx
    · refine ⟨(b.1, f b.2) :: bs, t, ?_, ?_⟩
      · simp [setFirst, hbc]
      · intro x hx
        rcases List.mem_cons.mp hx with rfl | hx
        · exact hb
        · exact hbs x hx

theorem find?_skip {key : String} {m : List Val} :
    ∀ {s t : List (String × List Val)},
      (∀ b ∈ s, (b.1 == key) = false) →
      (s ++ (key, m) :: t).find? (fun nc => nc.1 == key) = some (key, m) := by
  intro s
  induction s with
  | nil => intro t _; simp
  | cons b bs ih =>
    intro t hs
    have hb : (b.1 == key) = false := hs b (List.mem_cons_self b bs)
    rw [List.cons_append, List.find?_cons, hb]
    exact ih fun x hx => hs x (List.mem_cons_of_mem b hx)

/-! #### Substring and trimming facts used to locate the email column -/

theorem patAtFront_self : ∀ (p t : List Char), patAtFront p (p ++ t) = true
  | [], _ => rfl
  | c :: cs, t => by
    simp [patAtFront, patAtFront_self cs t]

theorem patInside_of_front {p l : List Char} (h : patAtFront p l = true) :
    patInside p l = true := by
  cases l with
  | nil => exact h
  | cons c cs => simp [patInside, h]

theorem patInside_append : ∀ (a p t : List Char), patInside p (a ++ (p ++ t)) = true
  | [], p, t => patInside_of_front (patAtFront_self p t)
  | c :: cs, p, t => by
    simp [patInside, patInside_append cs p t]

theorem dropWhile_decomp (q : Char → Bool) :
    ∀ l : List Char, ∃ a, l = a ++ l.dropWhile q
  | [] => ⟨[], rfl⟩
  | c :: cs => by
    cases hq : q c
    · exact ⟨[], by simp [List.dropWhile, hq]⟩
    · obtain ⟨a, ha⟩ := dropWhile_decomp q cs
      exact ⟨c :: a, by simp [List.dropWhile, hq]; exact ha⟩

theorem trimL_decomp (l : List Char) : ∃ a b, l = a ++ trimL l ++ b := by
  obtain ⟨a, ha⟩ := dropWhile_decomp Char.isWhitespace l
  obtain ⟨b, hb⟩ := dropWhile_decomp Char.isWhitespace (l.dropWhile Char.isWhitespace).reverse
  refine ⟨a, b.reverse, ?_⟩
  have hu : l.dropWhile Char.isWhitespace = trimL l ++ b.reverse := by
    have := congrArg List.reverse hb
    rw [List.reverse_reverse, List.reverse_append] at this
    exact this
  rw [List.append_assoc, ← hu]
  exact ha

/-- A column name whose normalized header reads "email" necessarily contains
"mail" case-insensitively: the normalizer's located column is always the
first column whose final label is `email`. -/
theorem hasMail_of_lowerName_email {c : String} (h : lowerName c = "email") :
    hasMail c = true := by
  have hl : lowerL (trimL c.data) = "email".data := congrArg String.data h
  obtain ⟨a, b, hab⟩ := trimL_decomp c.data
  have he : "email".data = 'e' :: "mail".data := rfl
  have hsplit : lowerL c.data = (lowerL a ++ ['e']) ++ ("mail".data ++ lowerL b) := by
    rw [show c.data = a ++ (trimL c.data ++ b) by rw [← List.append_assoc]; exact hab]
    simp only [lowerL, List.map_append]
    rw [show List.map Char.toLower (trimL c.data) = "email".data from hl, he]
    simp
  unfold hasMail
  rw [hsplit]
  exact patInside_append _ _ _

/-! #### The email column survives normalization at the same first position -/

theorem normEmailVal_isSome (v : Val) : (normEmailVal v).isSome = true := rfl

theorem fillCanon_keep (s t : List (String × List Val)) (m : List Val)
    (hs : ∀ b ∈ s, b.1 ≠ "email") :
    ∃ s' t',
      ["company", "quarter", "campaign", "__src__", "exclusions"].foldl
          (fun acc c => setFirst c (List.map fillNa) acc) (s ++ ("email", m) :: t)
        = s' ++ ("email", m) :: t' ∧
      ∀ b ∈ s', b.1 ≠ "email" := by
  have key : ∀ (cs : List String), (∀ c ∈ cs, c ≠ "email") →
      ∀ (s t : List (String × List Val)), (∀ b ∈ s, b.1 ≠ "email") →
      ∃ s' t',
        cs.foldl (fun acc c => setFirst c (List.map fillNa) acc) (s ++ ("email", m) :: t)
          = s' ++ ("email", m) :: t' ∧ ∀ b ∈ s', b.1 ≠ "email" := by
    intro cs
    induction cs with
    | nil => intro _ s t hst; exact ⟨s, t, rfl, hst⟩
    | cons c cs ih =>
      intro hcs s t hst
      obtain ⟨s1, t1, h1, h2⟩ :=
        setFirst_keep c "email" (List.map fillNa) m
          (hcs c (List.mem_cons_self c cs)) s t hst
      obtain ⟨s2, t2, h3, h4⟩ :=
        ih (fun x hx => hcs x (List.mem_cons_of_mem c hx)) s1 t1 h2
      exact ⟨s2, t2, by rw [List.foldl_cons, h1, h3], h4⟩
  obtain ⟨s', t', h1, h2⟩ :=
    key ["company", "quarter", "campaign", "__src__", "exclusions"] (by decide) s t hs
  exact ⟨s', t', h1, h2⟩

theorem ensureExclusions_nrows (df : DF) : (ensureExclusions df).nrows = df.nrows := by
  unfold ensureExclusions
  split <;> rfl

/-- Through the whole per-file normalization, the located email-bearing
column keeps the first position answering to the label `email`, its cells
are exactly the value-normalized cells of the located source column, and
the row count is unchanged. -/
theorem normalizeFile_email (fn : String) (df : DF) {c0 : String}
    (h : find_email_col (colNames df) = some c0) :
    ∃ d', normalizeFile fn df = some d' ∧ d'.nrows = df.nrows ∧
      colCells d' "email" = (colCells df c0).map normEmailVal := by
  have h' : (df.cols.map Prod.fst).find? hasMail = some c0 := h
  have hm0 : hasMail c0 = true := List.find?_some h'
  obtain ⟨s, nc0, t, hcols, hnc0, hsfail⟩ := find?_decomp_fst h'
  have hne : ∀ (e : String), hasMail e = true → ∀ b ∈ s, (b.1 == e) = false := by
    intro e he b hb
    refine beq_eq_false_iff_ne.mpr fun hbe => ?_
    have hbad := hsfail b hb
    rw [hbe, he] at hbad
    exact absurd hbad (by decide)
  have hs_ne_c0 : ∀ b ∈ s, (b.1 == c0) = false := hne c0 hm0
  have hsE : ∀ b ∈ s, (b.1 == "Email") = false := hne "Email" (by decide)
  have h1 : (renameToEmail c0 df).cols
      = s ++ ("Email", nc0.2)
          :: t.map (fun nc => (if nc.1 == c0 then "Email" else nc.1, nc.2)) := by
    show df.cols.map _ = _
    rw [hcols, List.map_append, List.map_cons]
    congr 1
    · rw [show s.map (fun nc => (if nc.1 == c0 then "Email" else nc.1, nc.2)) = s.map id from
        List.map_congr_left fun b hb => by simp [hs_ne_c0 b hb], List.map_id]
    · congr 1
      simp [hnc0]
  have h2 : (mapEmailCol (renameToEmail c0 df)).cols
      = s ++ ("Email", nc0.2.map normEmailVal)
          :: t.map (fun nc => (if nc.1 == c0 then "Email" else nc.1, nc.2)) := by
    show setFirst "Email" (List.map normEmailVal) (renameToEmail c0 df).cols = _
    rw [h1]
    exact setFirst_skip hsE
  have h3 : (addSrcCol fn (mapEmailCol (renameToEmail c0 df))).cols
      = s ++ ("Email", nc0.2.map normEmailVal)
          :: (t.map (fun nc => (if nc.1 == c0 then "Email" else nc.1, nc.2))
              ++ [("__src__", List.replicate df.nrows (some fn))]) := by
    show (mapEmailCol (renameToEmail c0 df)).cols
        ++ [("__src__", List.replicate df.nrows (some fn))] = _
    rw [h2]
    simp [List.append_assoc]
  have h4 : (lowerHeaders (addSrcCol fn (mapEmailCol (renameToEmail c0 df)))).cols
      = s.map (fun nc => (lowerName nc.1, nc.2))
          ++ ("email", nc0.2.map normEmailVal)
          :: ((t.map (fun nc => (if nc.1 == c0 then "Email" else nc.1, nc.2))
              ++ [("__src__", List.replicate df.nrows (some fn))]).map
                (fun nc => (lowerName nc.1, nc.2))) := by
    show (addSrcCol fn (mapEmailCol (renameToEmail c0 df))).cols.map _ = _
    rw [h3, List.map_append, List.map_cons]
    congr 2
  have h5 : (campaignAlias (lowerHeaders (addSrcCol fn (mapEmailCol
        (renameToEmail c0 df))))).cols
      = (s.map (fun nc => (lowerName nc.1, nc.2))).map
            (fun nc => (if nc.1 == "campaign name" then "campaign" else nc.1, nc.2))
          ++ ("email", nc0.2.map normEmailVal)
          :: (((t.map (fun nc => (if nc.1 == c0 then "Email" else nc.1, nc.2))
              ++ [("__src__", List.replicate df.nrows (some fn))]).map
                (fun nc => (lowerName nc.1, nc.2))).map
              (fun nc => (if nc.1 == "campaign name" then "campaign" else nc.1, nc.2))) := by
    show (lowerHeaders (addSrcCol fn (mapEmailCol (renameToEmail c0 df)))).cols.map _ = _
    rw [h4, List.map_append, List.map_cons]
    congr 2
  have hs5 : ∀ b ∈ (s.map (fun nc => (lowerName nc.1, nc.2))).map
      (fun nc => (if nc.1 == "campaign name" then "campaign" else nc.1, nc.2)),
      b.1 ≠ "email" := by
    intro b hb
    rw [List.map_map] at hb
    obtain ⟨y, hy, rfl⟩ := List.mem_map.mp hb
    dsimp only [Function.comp]
    cases hcn : (lowerName y.1 == "campaign name")
    · simp only [hcn, Bool.false_eq_true, if_false]
      intro he
      have := hasMail_of_lowerName_email he
      rw [hsfail y hy] at this
      exact absurd this (by decide)
    · simp only [hcn, if_true]
      decide
  have hEE : ∀ (d : DF), (ensureExclusions d).cols = d.cols ∨
      (ensureExclusions d).cols = d.cols ++ [("exclusions", List.replicate d.nrows (some ""))] := by
    intro d
    unfold ensureExclusions
    split
    · exact Or.inl rfl
    · exact Or.inr rfl
  have append_cons_right : ∀ {α : Type} (a : List α) (b : α) (c d : List α),
      (a ++ b :: c) ++ d = a ++ b :: (c ++ d) := by
    intro α a b c d
    simp
  obtain ⟨t6, h6⟩ : ∃ t6,
      (ensureExclusions (campaignAlias (lowerHeaders (addSrcCol fn (mapEmailCol
        (renameToEmail c0 df)))))).cols
      = (s.map (fun nc => (lowerName nc.1, nc.2))).map
            (fun nc => (if nc.1 == "campaign name" then "campaign" else nc.1, nc.2))
          ++ ("email", nc0.2.map normEmailVal) :: t6 := by
    rcases hEE (campaignAlias (lowerHeaders (addSrcCol fn (mapEmailCol
        (renameToEmail c0 df))))) with hx | hx
    · exact ⟨(((t.map (fun nc => (if nc.1 == c0 then "Email" else nc.1, nc.2))
          ++ [("__src__", List.replicate df.nrows (some fn))]).map
            (fun nc => (lowerName nc.1, nc.2))).map
          (fun nc => (if nc.1 == "campaign name" then "campaign" else nc.1, nc.2))),
        by rw [hx, h5]⟩
    · exact ⟨(((t.map (fun nc => (if nc.1 == c0 then "Email" else nc.1, nc.2))
          ++ [("__src__", List.replicate df.nrows (some fn))]).map
            (fun nc => (lowerName nc.1, nc.2))).map
          (fun nc => (if nc.1 == "campaign name" then "campaign" else nc.1, nc.2)))
        ++ [("exclusions", List.replicate (campaignAlias (lowerHeaders (addSrcCol fn
            (mapEmailCol (renameToEmail c0 df))))).nrows (some ""))],
        by rw [hx, h5, append_cons_right]⟩
  have h7 : (fillCanon (ensureExclusions (campaignAlias (lowerHeaders (addSrcCol fn
      (mapEmailCol (renameToEmail c0 df))))))).cols
      = ["company", "quarter", "campaign", "__src__", "exclusions"].foldl
          (fun acc c => setFirst c (List.map fillNa) acc)
          ((ensureExclusions (campaignAlias (lowerHeaders (addSrcCol fn (mapEmailCol
            (renameToEmail c0 df)))))).cols) := rfl
  rw [h6] at h7
  obtain ⟨s', t', h8, h9⟩ := fillCanon_keep _ t6 (nc0.2.map normEmailVal) hs5
  refine ⟨fillCanon (ensureExclusions (campaignAlias (lowerHeaders (addSrcCol fn
    (mapEmailCol (renameToEmail c0 df)))))), ?_, ?_, ?_⟩
  · unfold normalizeFile
    rw [h]
  · rw [show (fillCanon (ensureExclusions (campaignAlias (lowerHeaders (addSrcCol fn
      (mapEmailCol (renameToEmail c0 df))))))).nrows
      = (ensureExclusions (campaignAlias (lowerHeaders (addSrcCol fn (mapEmailCol
        (renameToEmail c0 df)))))).nrows from rfl, ensureExclusions_nrows]
    rfl
  · have hfinal := h7.trans h8
    have hbeq : ∀ b ∈ s', (b.1 == "email") = false := fun b hb =>
      beq_eq_false_iff_ne.mpr (h9 b hb)
    have hfind : (fillCanon (ensureExclusions (campaignAlias (lowerHeaders (addSrcCol fn
        (mapEmailCol (renameToEmail c0 df))))))).cols.find?
          (fun nc => nc.1 == "email") = some ("email", nc0.2.map normEmailVal) := by
      rw [hfinal]
      exact find?_skip hbeq
    have hnc0' : (c0, nc0.2) = nc0 := by
      rw [← hnc0]
    have hfind0 : df.cols.find? (fun nc => nc.1 == c0) = some (c0, nc0.2) := by
      rw [hcols, ← hnc0']
      exact find?_skip hs_ne_c0
    have hA : colCells (fillCanon (ensureExclusions (campaignAlias (lowerHeaders (addSrcCol fn
        (mapEmailCol (renameToEmail c0 df))))))) "email" = nc0.2.map normEmailVal := by
      simp [colCells, hfind]
    have hB : colCells df c0 = nc0.2 := by
      simp [colCells, hfind0]
    rw [hA, hB]

theorem colNames_lowerHeaders (d : DF) :
    colNames (lowerHeaders d) = (colNames d).map lowerName := by
  simp [colNames, lowerHeaders, List.map_map, Function.comp_def]

theorem colNames_campaignAlias (d : DF) :
    colNames (campaignAlias d)
      = (colNames d).map (fun c => if c == "campaign name" then "campaign" else c) := by
  simp [colNames, campaignAlias, List.map_map, Function.comp_def]

theorem colNames_addSrcCol (fn : String) (d : DF) :
    colNames (addSrcCol fn d) = colNames d ++ ["__src__"] := by
  simp [colNames, addSrcCol]

theorem colNames_ensureExclusions (d : DF) :
    colNames (ensureExclusions d) = colNames d ∨
      colNames (ensureExclusions d) = colNames d ++ ["exclusions"] := by
  unfold ensureExclusions
  split
  · exact Or.inl rfl
  · right
    simp [colNames]

theorem src_mem_normalizeFile {fn : String} {df d' : DF}
    (h : normalizeFile fn df = some d') : "__src__" ∈ colNames d' := by
  unfold normalizeFile at h
  cases hf : find_email_col (colNames df) with
  | none =>
    rw [hf] at h
    exact absurd h (by simp)
  | some c0 =>
    rw [hf] at h
    have hd := Option.some.inj h
    rw [← hd, colNames_fillCanon]
    have h1 : "__src__" ∈ colNames (addSrcCol fn (mapEmailCol (renameToEmail c0 df))) := by
      rw [colNames_addSrcCol]
      exact List.mem_append_right _ (by simp)
    have h2 : "__src__" ∈ colNames (lowerHeaders (addSrcCol fn (mapEmailCol
        (renameToEmail c0 df)))) := by
      rw [colNames_lowerHeaders]
      exact List.mem_map.mpr ⟨"__src__", h1, by decide⟩
    have h3 : "__src__" ∈ colNames (campaignAlias (lowerHeaders (addSrcCol fn (mapEmailCol
        (renameToEmail c0 df))))) := by
      rw [colNames_campaignAlias]
      exact List.mem_map.mpr ⟨"__src__", h2, by decide⟩
    rcases colNames_ensureExclusions (campaignAlias (lowerHeaders (addSrcCol fn (mapEmailCol
        (renameToEmail c0 df))))) with hx | hx
    · rw [hx]
      exact h3
    · rw [hx]
      exact List.mem_append_left _ h3

theorem mem_unionNames_aux {c : String} :
    ∀ (dfs : List DF) (acc : List String),
      (c ∈ acc ∨ ∃ d ∈ dfs, c ∈ colNames d) →
      c ∈ dfs.foldl (fun a d => a ++ (colNames d).filter (fun x => !a.contains x)) acc := by
  intro dfs
  induction dfs with
  | nil =>
    intro acc h
    rcases h with h | ⟨d, hd, _⟩
    · exact h
    · exact absurd hd (by simp)
  | cons d ds ih =>
    intro acc h
    rw [List.foldl_cons]
    apply ih
    rcases h with h | ⟨d', hd', hc⟩
    · exact Or.inl (List.mem_append_left _ h)
    · rcases List.mem_cons.mp hd' with rfl | hd'
      · by_cases hacc : c ∈ acc
        · exact Or.inl (List.mem_append_left _ hacc)
        · refine Or.inl (List.mem_append_right _ ?_)
          exact List.mem_filter.mpr ⟨hc, by simp [hacc]⟩
      · exact Or.inr ⟨d', hd', hc⟩

theorem mem_unionNames {c : String} {dfs : List DF} {d : DF}
    (hd : d ∈ dfs) (hc : c ∈ colNames d) : c ∈ unionNames dfs :=
  mem_unionNames_aux dfs [] (Or.inr ⟨d, hd, hc⟩)

/-- Inversion of a successful dedupe upload. -/
theorem runDedupe_some {exts : List String} {team : Nat} {token : String}
    {files : List UFile} {st : TState} {out : DedupeOut} {st' : TState}
    (h : runDedupe exts team token files st = (some out, st')) :
    (processFiles exts files).1 ≠ [] ∧
    out = mkDedupeOut token team st.store (concatAll (processFiles exts files).1)
            (processFiles exts files).2 ∧
    st' = ⟨st.store, (token, concatAll (processFiles exts files).1) :: st.cache⟩ := by
  unfold runDedupe at h
  dsimp only at h
  cases hemp : (processFiles exts files).1.isEmpty
  · rw [hemp] at h
    simp only [Bool.false_eq_true, if_false, Prod.mk.injEq] at h
    refine ⟨?_, (Option.some.inj h.1).symm, h.2.symm⟩
    intro hnil
    rw [hnil] at hemp
    exact absurd hemp (by decide)
  · rw [hemp] at h
    simp at h

/-- Inversion of a successful commit. -/
theorem runCommit_ok {team now : Nat} {token : String} {mode : SaveMode}
    {st : TState} {n : Nat} {st' : TState}
    (h : runCommit team now token mode st = .ok (n, st')) :
    ∃ df0, st.cache.lookup token = some df0 ∧
      (colNames (commitPrep df0)).contains "email" = true ∧
      n = (commitSelect team now mode st.store df0).length ∧
      st' = ⟨st.store ++ commitSelect team now mode st.store df0, st.cache⟩ := by
  unfold runCommit at h
  cases hlk : st.cache.lookup token with
  | none =>
    rw [hlk] at h
    exact Except.noConfusion h
  | some df0 =>
    rw [hlk] at h
    dsimp only at h
    cases he : (colNames (commitPrep df0)).contains "email"
    · rw [he] at h
      simp at h
    · rw [he] at h
      rw [if_pos rfl] at h
      have h' := Except.ok.inj h
      rw [Prod.mk.injEq] at h'
      exact ⟨df0, rfl, he, h'.1.symm, h'.2.symm⟩

/-! ### Concrete fixtures used by witnesses and counterexamples -/

def extsX : List String := ["xls", "xlsx"]

def fileA : UFile :=
  ⟨"a.xlsx", ⟨3, [("Email", [some "a@x.com", some "A@x.com ", some "b@x.com"]),
    ("Company", [some "Acme", some "Acme2", none])]⟩⟩

def leadOld : Lead := ⟨"a@x.com", "C1", "Q1", "Camp1", "f.xlsx", "", 10, 1⟩

def leadNew : Lead := ⟨"a@x.com", "C2", "Q2", "Camp2", "g.xlsx", "", 20, 1⟩

def bigT : DF :=
  ⟨3, [("email", [some "a@x.com", some "a@x.com", some "b@x.com"]),
    ("__src__", [some "a.xlsx", some "a.xlsx", some "a.xlsx"]),
    ("exclusions", [some "", some "", some ""])]⟩

def dedupeW : Option DedupeOut × TState := runDedupe extsX 1 "tok" [fileA] ⟨[], []⟩

def outW : DedupeOut := dedupeW.1.getD ⟨"", ⟨0, []⟩, [], [], 0, 0, ""⟩

/-! ### Claim theorems -/

/-- C1: for every uploaded batch and every store state, membership in the
duplicate set computed by classification is exactly: the email cell occurs
at least twice within the batch (keep-all: every occurrence flagged), or it
is a batch email already present in the acting team's persisted store;
every row's duplicate flag equals membership of its email cell in that set,
`count_all` equals the number of rows in the batch, and `count_dup` equals
the number of rows whose flag is true. -/
theorem c1_classification_duplicates (team : Nat) (store : List Lead) (big : DF)
    (token : String) (srcs : List String) :
    (∀ v : Val,
      inDupSet (colCells big "email")
          (sortedMatching team store (colCells big "email")) v = true ↔
        2 ≤ (colCells big "email").count v ∨
          ∃ l ∈ store, l.team_id = team ∧ some l.email = v ∧
            v ∈ colCells big "email") ∧
    (dedupeClassify team store big).map CRow.duplicate
      = (List.range big.nrows).map
          (fun i => inDupSet (colCells big "email")
            (sortedMatching team store (colCells big "email"))
            ((colCells big "email").getD i none)) ∧
    (mkDedupeOut token team store big srcs).count_all = big.nrows ∧
    (mkDedupeOut token team store big srcs).count_dup
      = ((dedupeClassify team store big).filter (fun r => r.duplicate)).length := by
  refine ⟨?_, ?_, ?_, ?_⟩
  · exact inDupSet_true_iff (fun l => mem_sortedMatching)
  · unfold dedupeClassify
    rw [List.map_map]
    exact List.map_congr_left fun i _ => classifyRow_duplicate big _ _ i
  · simp [mkDedupeOut, dedupeClassify]
  · rfl

/-- C8: an upload in which no file is accepted (unsupported extension or no
email-bearing column in every file) aborts: no classification output, no
token handed out, no staging-cache write, and the state (store and cache)
is returned unchanged. -/
theorem c8_no_valid_files (exts : List String) (team : Nat) (token : String)
    (files : List UFile) (st : TState)
    (h : ∀ f ∈ files,
      allowed_file exts f.name = false ∨ find_email_col (colNames f.df) = none) :
    runDedupe exts team token files st = (none, st) := by
  have hp := processFiles_none exts files h
  unfold runDedupe
  dsimp only
  rw [hp]
  rfl

theorem c8_witness :
    (allowed_file extsX "a.pdf" = false ∧
      find_email_col (colNames (⟨1, [("name", [some "joe"])]⟩ : DF)) = none) ∧
    runDedupe extsX 1 "t"
      [⟨"a.pdf", ⟨1, [("email", [some "x@y"])]⟩⟩, ⟨"b.xlsx", ⟨1, [("name", [some "joe"])]⟩⟩]
      ⟨[leadOld], []⟩ = (none, ⟨[leadOld], []⟩) :=
  ⟨by decide, c8_no_valid_files extsX 1 "t"
    [⟨"a.pdf", ⟨1, [("email", [some "x@y"])]⟩⟩, ⟨"b.xlsx", ⟨1, [("name", [some "joe"])]⟩⟩]
    ⟨[leadOld], []⟩ (by decide)⟩

/-- C10: the exact-email search normalizes its query (strip surrounding
whitespace, lowercase) before comparing; it returns exactly the acting
team's stored leads whose email equals the normalized query (exact
equality, no substring matching, team-scoped). -/
theorem c10_search_normalized (team : Nat) (store : List Lead) (q : String) :
    (∀ l ∈ store, l.team_id = team → pyLower (pyStrip q) = l.email →
        l ∈ runSearch team q store) ∧
    (∀ l ∈ runSearch team q store,
        l ∈ store ∧ l.email = pyLower (pyStrip q) ∧ l.team_id = team) := by
  constructor
  · intro l hl ht he
    unfold runSearch
    refine List.mem_filter.mpr ⟨hl, ?_⟩
    simp [← he, ht]
  · intro l hl
    unfold runSearch at hl
    have hm := List.mem_filter.mp hl
    have hb := hm.2
    simp only [Bool.and_eq_true, beq_iff_eq] at hb
    exact ⟨hm.1, hb.1, hb.2⟩

theorem c10_witness :
    pyLower (pyStrip "  A@X.com ") = leadOld.email ∧
    leadOld ∈ runSearch 1 "  A@X.com " [leadOld, leadNew] :=
  ⟨by decide,
    (c10_search_normalized 1 [leadOld, leadNew] "  A@X.com ").1 leadOld
      (by decide) (by decide) (by decide)⟩

/-- C3: a batch staged under a token by the upload operation is read back
from the staging cache exactly as written: the very same frame (same rows,
same values, same order, same column set), including the `__src__` source
tag column; the upload writes nothing to the persisted store. -/
theorem c3_cache_roundtrip (exts : List String) (team : Nat) (token : String)
    (files : List UFile) (st : TState) (out : DedupeOut) (st' : TState)
    (h : runDedupe exts team token files st = (some out, st')) :
    st'.cache.lookup out.token = some out.big ∧
    "__src__" ∈ colNames out.big ∧
    st'.store = st.store := by
  obtain ⟨hne, hout, hst⟩ := runDedupe_some h
  subst hout
  subst hst
  refine ⟨?_, ?_, rfl⟩
  · show ((token, concatAll (processFiles exts files).1) :: st.cache).lookup token
      = some (concatAll (processFiles exts files).1)
    simp [List.lookup]
  · obtain ⟨d, ds, hds⟩ : ∃ d ds, (processFiles exts files).1 = d :: ds := by
      cases hpf : (processFiles exts files).1 with
      | nil => exact absurd hpf hne
      | cons d ds => exact ⟨d, ds, rfl⟩
    have hd : d ∈ (processFiles exts files).1 := by
      rw [hds]
      exact List.mem_cons_self d ds
    obtain ⟨fn, df0, hnorm⟩ := processFiles_sources exts files d hd
    show "__src__" ∈ colNames (concatAll (processFiles exts files).1)
    rw [colNames_concatAll]
    exact mem_unionNames hd (src_mem_normalizeFile hnorm)

theorem c3_witness :
    runDedupe extsX 1 "tok" [fileA] ⟨[], []⟩ = (some outW, dedupeW.2) ∧
    dedupeW.2.cache.lookup outW.token = some outW.big ∧
    "__src__" ∈ colNames outW.big ∧
    dedupeW.2.store = ([] : List Lead) := by
  have h : runDedupe extsX 1 "tok" [fileA] ⟨[], []⟩ = (some outW, dedupeW.2) := rfl
  exact ⟨h, c3_cache_roundtrip extsX 1 "tok" [fileA] ⟨[], []⟩ outW dedupeW.2 h⟩

/-- C2: commit retrieves the staged batch, recomputes the duplicate set
against the store's current contents for the acting team (the upload-time
snapshot plays no role: only the store passed at commit time appears), and
inserts: with `save_all` exactly one new record per batch row
(`df0.nrows` records), with `save_dup` exactly the rows whose email is in
the recomputed duplicate set; the reported count equals the number of rows
inserted. -/
theorem c2_commit_modes (team now : Nat) (token : String) (mode : SaveMode)
    (st : TState) (df0 : DF)
    (hc : st.cache.lookup token = some df0)
    (he : (colNames (commitPrep df0)).contains "email" = true) :
    runCommit team now token mode st
      = .ok ((commitSelect team now mode st.store df0).length,
          ⟨st.store ++ commitSelect team now mode st.store df0, st.cache⟩) ∧
    (mode = SaveMode.save_all →
      (commitSelect team now mode st.store df0).length = df0.nrows) ∧
    (mode = SaveMode.save_dup →
      commitSelect team now mode st.store df0
        = ((List.range (commitPrep df0).nrows).filter
            (fun i => decide (2 ≤ (colCells (commitPrep df0) "email").count
                ((colCells (commitPrep df0) "email").getD i none) ∨
              ∃ l ∈ st.store, l.team_id = team ∧
                some l.email = (colCells (commitPrep df0) "email").getD i none ∧
                (colCells (commitPrep df0) "email").getD i none
                  ∈ colCells (commitPrep df0) "email"))).map
            (mkLead team now (commitPrep df0))) := by
  refine ⟨?_, ?_, ?_⟩
  · unfold runCommit
    rw [hc]
    dsimp only
    rw [he, if_pos rfl]
  · rintro rfl
    have hsel : commitSelect team now SaveMode.save_all st.store df0
        = (List.range (commitPrep df0).nrows).map (mkLead team now (commitPrep df0)) := by
      unfold commitSelect
      dsimp only
      congr 1
      exact List.filter_eq_self.mpr fun i _ => rfl
    rw [hsel, List.length_map, List.length_range, commitPrep_nrows]
  · rintro rfl
    unfold commitSelect
    dsimp only
    congr 1
    apply List.filter_congr
    intro i _
    rw [show (SaveMode.save_dup == SaveMode.save_all) = false from rfl, Bool.false_or]
    exact bool_eq_decide (inDupSet_true_iff (fun l => Iff.rfl) _)

theorem c2_witness :
    (List.lookup "t" [("t", bigT)] = some bigT ∧
      (colNames (commitPrep bigT)).contains "email" = true) ∧
    runCommit 1 99 "t" SaveMode.save_dup ⟨[leadOld], [("t", bigT)]⟩
      = .ok ((commitSelect 1 99 SaveMode.save_dup [leadOld] bigT).length,
          ⟨[leadOld] ++ commitSelect 1 99 SaveMode.save_dup [leadOld] bigT, [("t", bigT)]⟩) ∧
    (commitSelect 1 99 SaveMode.save_dup [leadOld] bigT).length = 2 := by
  have h := c2_commit_modes 1 99 "t" SaveMode.save_dup ⟨[leadOld], [("t", bigT)]⟩ bigT
    (by decide) (by decide)
  exact ⟨⟨by decide, by decide⟩, h.1, by decide⟩

/-- C9: commit only ever appends: every record already in the store is
unchanged (the new store is the old store with the inserted records
appended; the cache is untouched), each inserted record is built from its
row's fields (defaulted to the empty string when absent) with ownership set
to the acting team and the commit timestamp; and a selected row is inserted
even when its email already matches a persisted record — with `save_all`
every row is inserted, and with `save_dup` a row whose email matches a
persisted record of the team is always selected. -/
theorem c9_append_only (team now : Nat) (token : String) (mode : SaveMode)
    (st : TState) (n : Nat) (st' : TState)
    (h : runCommit team now token mode st = .ok (n, st')) :
    ∃ df0, st.cache.lookup token = some df0 ∧
      st'.store = st.store ++ commitSelect team now mode st.store df0 ∧
      st'.cache = st.cache ∧
      n = (commitSelect team now mode st.store df0).length ∧
      (∀ l ∈ commitSelect team now mode st.store df0,
        l.team_id = team ∧ l.upload_date = now ∧
        ∃ i, i < (commitPrep df0).nrows ∧ l = mkLead team now (commitPrep df0) i) ∧
      (mode = SaveMode.save_all →
        ∀ i, i < (commitPrep df0).nrows →
          mkLead team now (commitPrep df0) i ∈ commitSelect team now mode st.store df0) ∧
      (mode = SaveMode.save_dup →
        ∀ i, i < (commitPrep df0).nrows →
          (∃ l ∈ st.store, l.team_id = team ∧
            some l.email = (colCells (commitPrep df0) "email").getD i none) →
          mkLead team now (commitPrep df0) i ∈ commitSelect team now mode st.store df0) := by
  obtain ⟨df0, hlk, he, hn, hst⟩ := runCommit_ok h
  refine ⟨df0, hlk, by rw [hst], by rw [hst], hn, ?_, ?_, ?_⟩
  · intro l hl
    unfold commitSelect at hl
    dsimp only at hl
    obtain ⟨i, hi, rfl⟩ := List.mem_map.mp hl
    have hir := (List.mem_filter.mp hi).1
    exact ⟨rfl, rfl, i, List.mem_range.mp hir, rfl⟩
  · rintro rfl i hi
    unfold commitSelect
    dsimp only
    exact List.mem_map.mpr ⟨i,
      List.mem_filter.mpr ⟨List.mem_range.mpr hi, rfl⟩, rfl⟩
  · rintro rfl i hi ⟨l, hl, hteam, hemail⟩
    unfold commitSelect
    dsimp only
    refine List.mem_map.mpr ⟨i, List.mem_filter.mpr ⟨List.mem_range.mpr hi, ?_⟩, rfl⟩
    rw [show (SaveMode.save_dup == SaveMode.save_all) = false from rfl, Bool.false_or]
    have hv : (colCells (commitPrep df0) "email").getD i none
        ∈ colCells (commitPrep df0) "email" := by
      by_cases hlen : i < (colCells (commitPrep df0) "email").length
      · rw [List.getD_eq_getElem _ _ hlen]
        exact List.getElem_mem hlen
      · rw [List.getD_eq_default _ _ (Nat.le_of_not_lt hlen)] at hemail
        exact absurd hemail (by simp)
    unfold inDupSet
    rw [Bool.or_eq_true]
    refine Or.inr (List.any_eq_true.mpr ⟨l, mem_teamMatching.mpr ⟨hl, hteam, ?_⟩, ?_⟩)
    · rw [hemail]
      exact hv
    · simp [hemail]

theorem c9_witness :
    runCommit 1 99 "t" SaveMode.save_all ⟨[leadOld], [("t", bigT)]⟩
      = .ok (3, ⟨[leadOld] ++ commitSelect 1 99 SaveMode.save_all [leadOld] bigT,
          [("t", bigT)]⟩) ∧
    (∃ df0, List.lookup "t" [("t", bigT)] = some df0 ∧
      [leadOld] ++ commitSelect 1 99 SaveMode.save_all [leadOld] bigT
        = [leadOld] ++ commitSelect 1 99 SaveMode.save_all [leadOld] df0 ∧
      ([("t", bigT)] : List (String × DF)) = [("t", bigT)] ∧
      (3 : Nat) = (commitSelect 1 99 SaveMode.save_all [leadOld] df0).length ∧
      (∀ l ∈ commitSelect 1 99 SaveMode.save_all [leadOld] df0,
        l.team_id = 1 ∧ l.upload_date = 99 ∧
        ∃ i, i < (commitPrep df0).nrows ∧ l = mkLead 1 99 (commitPrep df0) i) ∧
      (SaveMode.save_all = SaveMode.save_all →
        ∀ i, i < (commitPrep df0).nrows →
          mkLead 1 99 (commitPrep df0) i
            ∈ commitSelect 1 99 SaveMode.save_all [leadOld] df0) ∧
      (SaveMode.save_all = SaveMode.save_dup →
        ∀ i, i < (commitPrep df0).nrows →
          (∃ l ∈ [leadOld], l.team_id = 1 ∧
            some l.email = (colCells (commitPrep df0) "email").getD i none) →
          mkLead 1 99 (commitPrep df0) i
            ∈ commitSelect 1 99 SaveMode.save_all [leadOld] df0)) := by
  have h : runCommit 1 99 "t" SaveMode.save_all ⟨[leadOld], [("t", bigT)]⟩
      = .ok (3, ⟨[leadOld] ++ commitSelect 1 99 SaveMode.save_all [leadOld] bigT,
          [("t", bigT)]⟩) := rfl
  exact ⟨h, c9_append_only 1 99 "t" SaveMode.save_all ⟨[leadOld], [("t", bigT)]⟩ 3
    ⟨[leadOld] ++ commitSelect 1 99 SaveMode.save_all [leadOld] bigT, [("t", bigT)]⟩ h⟩

/-- C4: classification and commit under a team read only that team's
records — both depend only on the store filtered to the acting team — and
write only records owned by that team: every inserted record carries the
acting team's id, and every other team's stored records are exactly
preserved by a commit.  The same upload classified under two different
teams can produce different duplicate flags (concrete final conjunct). -/
theorem c4_team_isolation (team now : Nat) (token : String) (mode : SaveMode)
    (s1 s2 : List Lead) (big df0 : DF) (st : TState) (n : Nat) (st' : TState) :
    (s1.filter (fun l => l.team_id == team) = s2.filter (fun l => l.team_id == team) →
      dedupeClassify team s1 big = dedupeClassify team s2 big) ∧
    (s1.filter (fun l => l.team_id == team) = s2.filter (fun l => l.team_id == team) →
      commitSelect team now mode s1 df0 = commitSelect team now mode s2 df0) ∧
    (∀ l ∈ commitSelect team now mode s1 df0, l.team_id = team) ∧
    (runCommit team now token mode st = .ok (n, st') →
      ∀ b : Nat, b ≠ team →
        st'.store.filter (fun l => l.team_id == b)
          = st.store.filter (fun l => l.team_id == b)) ∧
    dedupeClassify 1 [⟨"a@x.com", "", "", "", "", "", 5, 1⟩]
        ⟨1, [("email", [some "a@x.com"])]⟩
      ≠ dedupeClassify 2 [⟨"a@x.com", "", "", "", "", "", 5, 1⟩]
        ⟨1, [("email", [some "a@x.com"])]⟩ := by
  have teamMatching_filter : ∀ (s : List Lead) (emails : List Val),
      teamMatching team s emails
        = (s.filter (fun l => l.team_id == team)).filter
            (fun l => emails.contains (some l.email)) := by
    intro s emails
    unfold teamMatching
    rw [List.filter_filter]
    exact List.filter_congr fun l _ => Bool.and_comm _ _
  refine ⟨?_, ?_, ?_, ?_, ?_⟩
  · intro hf
    have hms : sortedMatching team s1 (colCells big "email")
        = sortedMatching team s2 (colCells big "email") := by
      unfold sortedMatching
      rw [teamMatching_filter, hf, ← teamMatching_filter]
    unfold dedupeClassify
    dsimp only
    rw [hms]
  · intro hf
    unfold commitSelect
    dsimp only
    rw [teamMatching_filter, hf, ← teamMatching_filter]
  · intro l hl
    unfold commitSelect at hl
    dsimp only at hl
    obtain ⟨i, _, rfl⟩ := List.mem_map.mp hl
    rfl
  · intro h b hb
    obtain ⟨df0', _, _, _, hst⟩ := runCommit_ok h
    rw [hst]
    show (st.store ++ commitSelect team now mode st.store df0').filter
        (fun l => l.team_id == b) = _
    rw [List.filter_append]
    have hnil : (commitSelect team now mode st.store df0').filter
        (fun l => l.team_id == b) = [] := by
      rw [List.filter_eq_nil_iff]
      intro l hl
      obtain ⟨i, _, rfl⟩ := List.mem_map.mp (by
        unfold commitSelect at hl
        dsimp only at hl
        exact hl)
      simp only [beq_iff_eq]
      intro hteam
      exact hb (by rw [← hteam]; rfl)
    rw [hnil, List.append_nil]
  · decide

theorem c4_witness :
    ([leadOld].filter (fun l => l.team_id == 1) = [leadOld].filter (fun l => l.team_id == 1)) ∧
    dedupeClassify 1 [leadOld] bigT = dedupeClassify 1 [leadOld] bigT ∧
    (∀ l ∈ commitSelect 1 99 SaveMode.save_all [leadOld] bigT, l.team_id = 1) := by
  have h := c4_team_isolation 1 99 "t" SaveMode.save_all [leadOld] [leadOld] bigT bigT
    ⟨[leadOld], [("t", bigT)]⟩ 3
    ⟨[leadOld] ++ commitSelect 1 99 SaveMode.save_all [leadOld] bigT, [("t", bigT)]⟩
  exact ⟨rfl, h.1 rfl, h.2.2.1⟩

def big0 : DF := ⟨1, [("email", [some "a@x.com"])]⟩

/-- C5 counterexample: the claim says a row that is not a duplicate at all
gets an empty/neutral origin label; the code labels every non-duplicate row
"Current Sheet" (app.py line 597). -/
theorem c5_counterexample :
    (dedupeClassify 1 [] ⟨1, [("email", [some "x@y"])]⟩).map CRow.duplicate = [false] ∧
    (dedupeClassify 1 [] ⟨1, [("email", [some "x@y"])]⟩).map CRow.origin
      = ["Current Sheet"] ∧
    "Current Sheet" ≠ "" := by
  decide

/-- C5 (amended): for every classified row, when its email has no persisted
match in the acting team's store the origin label is "Current Sheet"
(whether or not it repeats within the batch — the code's uniform
display-consistency default); when it has a persisted match, the origin
label is "DB: campaign/quarter" (or "DB" when both are blank) built from a
matching record of the acting team that is most recent by upload date, and
the displayed date is that record's upload date. -/
theorem c5_origin_labels_amended (team : Nat) (store : List Lead) (big : DF) (i : Nat)
    (hi : i < big.nrows) :
    (latestByVal (sortedMatching team store (colCells big "email"))
        ((colCells big "email").getD i none) = none →
      ((dedupeClassify team store big).getD i ⟨[], "", false, ""⟩).origin
        = "Current Sheet") ∧
    (∀ lead, latestByVal (sortedMatching team store (colCells big "email"))
        ((colCells big "email").getD i none) = some lead →
      ((dedupeClassify team store big).getD i ⟨[], "", false, ""⟩).origin
        = dbLabel lead ∧
      ((dedupeClassify team store big).getD i ⟨[], "", false, ""⟩).upload_date
        = fmtDate lead.upload_date ∧
      some lead.email = (colCells big "email").getD i none ∧
      lead ∈ store ∧ lead.team_id = team ∧
      ∀ l ∈ store, l.team_id = team → l.email = lead.email →
        l.upload_date ≤ lead.upload_date) := by
  rw [dedupeClassify_getD team store big i hi]
  constructor
  · exact classifyRow_origin_none big _ _ i
  · intro lead hlv
    have hmem := List.mem_of_find?_eq_some hlv
    have hpred := List.find?_some hlv
    have hveq : some lead.email = (colCells big "email").getD i none := by
      simpa using hpred
    obtain ⟨hstore, hteam, hemails⟩ := mem_teamMatching.mp (mem_sortedMatching.mp hmem)
    have horig := classifyRow_origin_some big _ _ i hlv
    refine ⟨horig.1, horig.2, hveq, hstore, hteam, ?_⟩
    intro l hl hlteam hlemail
    have hlm : l ∈ sortedMatching team store (colCells big "email") :=
      mem_sortedMatching.mpr (mem_teamMatching.mpr ⟨hl, hlteam, by
        rw [hlemail]
        exact hemails⟩)
    exact sorted_find_max (List.sorted_insertionSort leadLe _) hlv l hlm
      (by rw [hlemail]; exact hveq)

theorem c5_witness :
    (0 < big0.nrows) ∧
    latestByVal (sortedMatching 1 [leadOld, leadNew] (colCells big0 "email"))
        ((colCells big0 "email").getD 0 none) = some leadNew ∧
    ((dedupeClassify 1 [leadOld, leadNew] big0).getD 0 ⟨[], "", false, ""⟩).origin
      = dbLabel leadNew ∧
    ((dedupeClassify 1 [leadOld, leadNew] big0).getD 0 ⟨[], "", false, ""⟩).upload_date
      = fmtDate leadNew.upload_date ∧
    leadNew ∈ [leadOld, leadNew] ∧ leadNew.team_id = 1 ∧
    leadOld.upload_date ≤ leadNew.upload_date := by
  have h := (c5_origin_labels_amended 1 [leadOld, leadNew] big0 0 (by decide)).2
    leadNew (by rfl)
  exact ⟨by decide, by rfl, h.1, h.2.1, h.2.2.2.1, h.2.2.2.2.1,
    h.2.2.2.2.2 leadOld (by decide) (by decide) (by decide)⟩

/-- C6 counterexample: uploading two accepted files with differing column
sets back-fills the column missing from the second file's rows with the
pandas missing marker (`none`), not with the empty string as the claim
states. -/
theorem c6_counterexample :
    ((runDedupe ["xls", "xlsx"] 1 "t"
        [⟨"a.xlsx", ⟨1, [("email", [some "x@y"]), ("company", [some "Acme"])]⟩⟩,
         ⟨"b.xlsx", ⟨1, [("email", [some "z@y"])]⟩⟩] ⟨[], []⟩).1.map
      (fun o => colCells o.big "company")) = some [some "Acme", none] := by
  decide

/-- C6 (amended): after normalization and union every row of the resulting
batch has the same column set — every column of the unioned frame carries
exactly one cell per batch row — but a column missing from a row's source
file is back-filled with the missing marker (pandas NaN, `none`), not with
the empty string: a column entirely absent from a frame reads as
all-missing. -/
theorem c6_union_columns_amended :
    (∀ (exts : List String) (team : Nat) (token : String) (files : List UFile)
        (st : TState) (out : DedupeOut) (st' : TState),
      runDedupe exts team token files st = (some out, st') →
      ∀ nc ∈ out.big.cols, nc.2.length = out.big.nrows) ∧
    (∀ (d : DF) (c : String), c ∉ colNames d →
      colCells d c = List.replicate d.nrows none) := by
  constructor
  · intro exts team token files st out st' h nc hnc
    obtain ⟨_, hout, _⟩ := runDedupe_some h
    subst hout
    revert hnc
    show nc ∈ (concatAll (processFiles exts files).1).cols →
      nc.2.length = (concatAll (processFiles exts files).1).nrows
    intro hnc
    obtain ⟨c, _, rfl⟩ := List.mem_map.mp hnc
    show ((processFiles exts files).1.map
        (fun d => resize d.nrows (colCells d c))).flatten.length
      = ((processFiles exts files).1.map DF.nrows).sum
    rw [List.length_flatten, List.map_map]
    exact congrArg List.sum
      (List.map_congr_left fun d _ => resize_length d.nrows (colCells d c))
  · intro d c hc
    cases hf : d.cols.find? (fun nc => nc.1 == c) with
    | none => simp [colCells, hf]
    | some nc =>
      exact absurd (List.mem_map.mpr
        ⟨nc, List.mem_of_find?_eq_some hf, by simpa using List.find?_some hf⟩) hc

theorem c6_witness :
    (("email", [some "a@x.com", some "a@x.com", some "b@x.com"]) ∈ outW.big.cols) ∧
    (("email", [some "a@x.com", some "a@x.com", some "b@x.com"])
        : String × List Val).2.length = outW.big.nrows ∧
    "zz" ∉ colNames bigT ∧
    colCells bigT "zz" = List.replicate bigT.nrows none := by
  refine ⟨by decide, ?_, by decide, ?_⟩
  · exact c6_union_columns_amended.1 extsX 1 "tok" [fileA] ⟨[], []⟩ outW dedupeW.2
      rfl _ (by decide)
  · exact c6_union_columns_amended.2 bigT "zz" (by decide)

/-- C7 counterexample: a source file containing a row whose email value is
missing (NaN — not parseable as an email) is NOT rejected: the upload
accepts the file and the row's email cell becomes the literal string "nan"
(`str(nan).strip().lower()`). -/
theorem c7_counterexample :
    ((runDedupe ["xls", "xlsx"] 1 "t"
        [⟨"a.xlsx", ⟨1, [("email", [none])]⟩⟩] ⟨[], []⟩).1.map
      (fun o => colCells o.big "email")) = some [some "nan"] ∧
    ((runDedupe ["xls", "xlsx"] 1 "t"
        [⟨"a.xlsx", ⟨1, [("email", [none])]⟩⟩] ⟨[], []⟩).1.map
      (fun o => o.count_all)) = some 1 := by
  decide

/-- C7 (amended): in every normalized batch the email cell of every row is
non-null — every value of the located email column is coerced to a string
(`str(...)`), trimmed and lowercased, a missing value becoming the string
"nan" — and a source file is rejected as a whole exactly when it lacks an
email-bearing column; row values never cause rejection and no individual
row is dropped (the row count is preserved). -/
theorem c7_email_normalization_amended (fn : String) (df : DF) :
    (find_email_col (colNames df) = none → normalizeFile fn df = none) ∧
    (∀ c0, find_email_col (colNames df) = some c0 →
      ∃ d', normalizeFile fn df = some d' ∧ d'.nrows = df.nrows ∧
        colCells d' "email" = (colCells df c0).map normEmailVal ∧
        ∀ v ∈ colCells d' "email", v.isSome = true) := by
  constructor
  · intro h
    unfold normalizeFile
    rw [h]
  · intro c0 h
    obtain ⟨d', h1, h2, h3⟩ := normalizeFile_email fn df h
    refine ⟨d', h1, h2, h3, ?_⟩
    rw [h3]
    intro v hv
    obtain ⟨u, _, rfl⟩ := List.mem_map.mp hv
    rfl

theorem c7_witness :
    (find_email_col (colNames (⟨1, [("name", [some "j"])]⟩ : DF)) = none ∧
      normalizeFile "b.xlsx" ⟨1, [("name", [some "j"])]⟩ = none) ∧
    (find_email_col (colNames (⟨1, [("email", [none])]⟩ : DF)) = some "email" ∧
      ∃ d', normalizeFile "a.xlsx" ⟨1, [("email", [none])]⟩ = some d' ∧
        d'.nrows = (⟨1, [("email", [none])]⟩ : DF).nrows ∧
        colCells d' "email"
          = (colCells ⟨1, [("email", [none])]⟩ "email").map normEmailVal ∧
        ∀ v ∈ colCells d' "email", v.isSome = true) := by
  constructor
  · exact ⟨by decide,
      (c7_email_normalization_amended "b.xlsx" ⟨1, [("name", [some "j"])]⟩).1 (by decide)⟩
  · exact ⟨by decide,
      (c7_email_normalization_amended "a.xlsx" ⟨1, [("email", [none])]⟩).2 "email" (by decide)⟩

end Arkane
